import Mathlib

/-!
# Verification of the `tengor` neural-network engine (shallow embedding)

This development embeds the core of the `tengor` repository
(`nn/shape.go`, `nn/tensor.go`, `nn/layer.go`, `nn/loss.go`,
`nn/optimizer.go`, `nn/model.go`) into Lean 4 and proves properties of it.

Conventions of the embedding:
* Go `float64` values are modelled as elements of an arbitrary linear
  ordered field `K` (instantiated with `ℚ` for concrete evaluation);
  the transcendental primitives `math.Log` / `math.Exp` are abstract
  function parameters.
* A tensor's flat buffer `rawData []float64` is a `List K` in row-major
  order; a `Shape` is a `List ℤ` of dimension sizes (Go `int`).
* Functions that `panic` in Go are embedded as `Except String` /
  `Option` valued functions, or are guarded by the hypotheses of the
  theorems that use them.
* Go `for` loops over slices become structural recursions over lists;
  index-based loops become recursions over an index counter.
-/

namespace Tengor

/-- A `Shape` is a list of dimension sizes (`type Shape []int`, shape.go). -/
abbrev ShapeZ := List ℤ

/-- `Shape.Rank` (shape.go): the number of axes. -/
def rankZ (s : ShapeZ) : ℕ := s.length

/-- `Shape.Elements` (shape.go): `e := 1; for _, i := range s { e *= i }`. -/
def elementsZ (s : ShapeZ) : ℤ := s.foldl (· * ·) 1

/-- The loop body of `Shape.RawIndex` (shape.go lines 12-21): walks the
coordinate list `at` in lockstep with the dimension list, rejecting a
coordinate `x` with `x >= s[i]` ("index out of range") and otherwise
accumulating `index += x * a; a *= s[i]`.  The final catch-all branch is
unreachable once the rank check of `RawIndex` has passed. -/
def rawIndexAux : ShapeZ → List ℤ → ℤ → ℤ → Except String ℤ
  | [], [], index, _ => .ok index
  | d :: ds, x :: xs, index, a =>
      if d ≤ x then .error "index out of range"
      else rawIndexAux ds xs (index + x * a) (a * d)
  | _, _, _, _ => .error "invalid rank"

/-- `Shape.RawIndex` (shape.go lines 7-24): panics with "invalid rank"
when the coordinate tuple's rank differs from the shape's rank, else
runs the accumulation loop. -/
def RawIndex (s at' : ShapeZ) : Except String ℤ :=
  if rankZ s ≠ rankZ at' then .error "invalid rank"
  else rawIndexAux s at' 0 1

/-- The row-major index formula named by the spec:
`i0 + d0*(i1 + d1*(i2 + ...))`. -/
def rowMajorIndex : ShapeZ → List ℤ → ℤ
  | d :: ds, x :: xs => x + d * rowMajorIndex ds xs
  | _, _ => 0

/-- Validity of a coordinate tuple for a shape: same rank, and every
coordinate within `[0, dimension)`. -/
def validCoordsB : ShapeZ → List ℤ → Bool
  | [], [] => true
  | d :: ds, x :: xs => (0 ≤ x && x < d) && validCoordsB ds xs
  | _, _ => false

/-- Pointwise upper-bound check only (what the Go loop actually tests):
same rank and every coordinate `< dimension`, sign unchecked. -/
def coordsLtB : ShapeZ → List ℤ → Bool
  | [], [] => true
  | d :: ds, x :: xs => (x < d) && coordsLtB ds xs
  | _, _ => false

/-- All dimension sizes positive (the `Shape` invariant of the spec). -/
def allPosB : ShapeZ → Bool
  | [] => true
  | d :: ds => (0 < d) && allPosB ds

lemma validCoordsB_coordsLtB {s xs : List ℤ} (h : validCoordsB s xs) :
    coordsLtB s xs := by
  induction s generalizing xs with
  | nil => cases xs with
    | nil => simp [coordsLtB]
    | cons y ys => simp [validCoordsB] at h
  | cons d ds ih =>
    cases xs with
    | nil => simp [validCoordsB] at h
    | cons y ys =>
      simp only [validCoordsB, Bool.and_eq_true, decide_eq_true_eq] at h
      simp only [coordsLtB, Bool.and_eq_true, decide_eq_true_eq]
      exact ⟨h.1.2, ih h.2⟩

lemma coordsLtB_length {s xs : List ℤ} (h : coordsLtB s xs) :
    s.length = xs.length := by
  induction s generalizing xs with
  | nil => cases xs with
    | nil => rfl
    | cons y ys => simp [coordsLtB] at h
  | cons d ds ih =>
    cases xs with
    | nil => simp [coordsLtB] at h
    | cons y ys =>
      simp only [coordsLtB, Bool.and_eq_true, decide_eq_true_eq] at h
      simpa using ih h.2

/-- The accumulation loop computes the row-major formula whenever every
coordinate is below its dimension (no sign check is performed). -/
lemma rawIndexAux_ok {s xs : List ℤ} (h : coordsLtB s xs) :
    ∀ index a, rawIndexAux s xs index a = .ok (index + a * rowMajorIndex s xs) := by
  induction s generalizing xs with
  | nil =>
    cases xs with
    | nil => intro index a; simp [rawIndexAux, rowMajorIndex]
    | cons y ys => simp [coordsLtB] at h
  | cons d ds ih =>
    cases xs with
    | nil => simp [coordsLtB] at h
    | cons y ys =>
      simp only [coordsLtB, Bool.and_eq_true, decide_eq_true_eq] at h
      intro index a
      rw [rawIndexAux, if_neg (by omega)]
      rw [ih h.2]
      congr 1
      simp [rowMajorIndex]
      ring

lemma foldl_mul_int (l : List ℤ) : ∀ a : ℤ, l.foldl (· * ·) a = a * l.foldl (· * ·) 1 := by
  induction l with
  | nil => intro a; simp
  | cons d ds ih =>
    intro a
    simp only [List.foldl_cons]
    rw [ih (a * d), ih (1 * d)]
    ring

lemma elementsZ_cons (d : ℤ) (ds : ShapeZ) :
    elementsZ (d :: ds) = d * elementsZ ds := by
  simp only [elementsZ, List.foldl_cons]
  rw [foldl_mul_int ds (1 * d)]
  ring

/-- For valid coordinates in a positive shape, the row-major index lies
in `[0, elementsZ s)`. -/
lemma rowMajorIndex_range {s xs : List ℤ} (hpos : allPosB s)
    (h : validCoordsB s xs) :
    0 ≤ rowMajorIndex s xs ∧ rowMajorIndex s xs < elementsZ s := by
  induction s generalizing xs with
  | nil =>
    cases xs with
    | nil => simp [rowMajorIndex, elementsZ]
    | cons y ys => simp [validCoordsB] at h
  | cons d ds ih =>
    cases xs with
    | nil => simp [validCoordsB] at h
    | cons y ys =>
      simp only [validCoordsB, Bool.and_eq_true, decide_eq_true_eq] at h
      simp only [allPosB, Bool.and_eq_true, decide_eq_true_eq] at hpos
      obtain ⟨⟨hy0, hyd⟩, hrest⟩ := h
      obtain ⟨hd, hpos'⟩ := hpos
      obtain ⟨h0, h1⟩ := ih hpos' hrest
      simp only [rowMajorIndex, elementsZ_cons]
      constructor
      · nlinarith
      · nlinarith

/-- Row-major indexing is injective on valid coordinate tuples. -/
lemma rowMajorIndex_injective {s : ShapeZ} (hpos : allPosB s) :
    ∀ xs ys : List ℤ, validCoordsB s xs → validCoordsB s ys →
      rowMajorIndex s xs = rowMajorIndex s ys → xs = ys := by
  induction s with
  | nil =>
    intro xs ys hx hy _
    cases xs with
    | nil => cases ys with
      | nil => rfl
      | cons b bs => simp [validCoordsB] at hy
    | cons a as => simp [validCoordsB] at hx
  | cons d ds ih =>
    intro xs ys hx hy heq
    cases xs with
    | nil => simp [validCoordsB] at hx
    | cons a as =>
      cases ys with
      | nil => simp [validCoordsB] at hy
      | cons b bs =>
        simp only [validCoordsB, Bool.and_eq_true, decide_eq_true_eq] at hx hy
        simp only [allPosB, Bool.and_eq_true, decide_eq_true_eq] at hpos
        obtain ⟨⟨ha0, had⟩, hxs⟩ := hx
        obtain ⟨⟨hb0, hbd⟩, hys⟩ := hy
        obtain ⟨hd, hpos'⟩ := hpos
        simp only [rowMajorIndex] at heq
        -- a + d * r₁ = b + d * r₂ with 0 ≤ a,b < d forces a = b and r₁ = r₂.
        have hr : rowMajorIndex ds as = rowMajorIndex ds bs := by
          by_contra hne
          rcases lt_or_gt_of_ne hne with hlt | hgt
          · nlinarith
          · nlinarith
        have hab : a = b := by rw [hr] at heq; linarith
        rw [hab, ih hpos' as bs hxs hys hr]

/-- Every flat index in `[0, elementsZ s)` is hit by a valid coordinate
tuple (surjectivity of row-major indexing onto its range). -/
lemma rowMajorIndex_surjective {s : ShapeZ} (hpos : allPosB s) :
    ∀ n : ℤ, 0 ≤ n → n < elementsZ s →
      ∃ xs, validCoordsB s xs ∧ rowMajorIndex s xs = n := by
  induction s with
  | nil =>
    intro n h0 h1
    simp only [elementsZ, List.foldl_nil] at h1
    refine ⟨[], by simp [validCoordsB], ?_⟩
    simp only [rowMajorIndex]
    omega
  | cons d ds ih =>
    intro n h0 h1
    simp only [allPosB, Bool.and_eq_true, decide_eq_true_eq] at hpos
    obtain ⟨hd, hpos'⟩ := hpos
    rw [elementsZ_cons] at h1
    have hE : 0 < elementsZ ds := by
      by_contra hEn
      push_neg at hEn
      nlinarith
    have hmod0 : 0 ≤ n % d := Int.emod_nonneg n (by omega)
    have hmodd : n % d < d := Int.emod_lt_of_pos n hd
    have hdiv0 : 0 ≤ n / d := Int.ediv_nonneg h0 (by omega)
    have hdivE : n / d < elementsZ ds := by
      rw [Int.ediv_lt_iff_lt_mul hd]
      nlinarith
    obtain ⟨xs, hv, hr⟩ := ih hpos' (n / d) hdiv0 hdivE
    refine ⟨n % d :: xs, ?_, ?_⟩
    · simp only [validCoordsB, Bool.and_eq_true, decide_eq_true_eq]
      exact ⟨⟨hmod0, hmodd⟩, hv⟩
    · simp only [rowMajorIndex]
      rw [hr]
      exact Int.emod_add_ediv n d

/-- C4: for every shape `s` with positive dimensions, `RawIndex`
restricted to valid coordinate tuples computes the row-major index
`i0 + d0*(i1 + d1*(i2 + ...))`, is injective over the valid coordinate
space, its image is exactly `[0, elementsZ s)`, and a coordinate tuple
of the wrong rank is rejected with the "invalid rank" error. -/
theorem rawIndex_rowMajor_bijection (s : ShapeZ) (hpos : allPosB s) :
    (∀ xs, validCoordsB s xs → RawIndex s xs = .ok (rowMajorIndex s xs)) ∧
    (∀ xs ys, validCoordsB s xs → validCoordsB s ys →
        rowMajorIndex s xs = rowMajorIndex s ys → xs = ys) ∧
    (∀ xs, validCoordsB s xs →
        0 ≤ rowMajorIndex s xs ∧ rowMajorIndex s xs < elementsZ s) ∧
    (∀ n : ℤ, 0 ≤ n → n < elementsZ s →
        ∃ xs, validCoordsB s xs ∧ RawIndex s xs = .ok n) ∧
    (∀ xs : List ℤ, rankZ s ≠ rankZ xs → RawIndex s xs = .error "invalid rank") := by
  have hok : ∀ xs, validCoordsB s xs → RawIndex s xs = .ok (rowMajorIndex s xs) := by
    intro xs hv
    have hlt := validCoordsB_coordsLtB hv
    have hlen := coordsLtB_length hlt
    rw [RawIndex, if_neg (by simp [rankZ, hlen])]
    rw [rawIndexAux_ok hlt 0 1]
    norm_num
  refine ⟨hok, fun xs ys hx hy => rowMajorIndex_injective hpos xs ys hx hy,
    fun xs hv => rowMajorIndex_range hpos hv, ?_, ?_⟩
  · intro n h0 h1
    obtain ⟨xs, hv, hr⟩ := rowMajorIndex_surjective hpos n h0 h1
    exact ⟨xs, hv, by rw [hok xs hv, hr]⟩
  · intro xs hne
    rw [RawIndex, if_pos hne]

theorem rawIndex_rowMajor_bijection_witness :
    allPosB [2, 3] = true ∧ validCoordsB [2, 3] [1, 2] = true ∧
    RawIndex [2, 3] [1, 2] = .ok 5 ∧
    RawIndex [2, 3] [1] = .error "invalid rank" := by
  have h := rawIndex_rowMajor_bijection [2, 3] (by decide)
  have hv : rowMajorIndex [2, 3] [1, 2] = 5 := by decide
  exact ⟨by decide, by decide, hv ▸ h.1 [1, 2] (by decide),
    h.2.2.2.2 [1] (by decide)⟩

/-- C9: the per-coordinate check of `Shape.RawIndex` only rejects
coordinates `≥` the dimension; a correct-rank tuple containing a
negative coordinate raises no out-of-range error, and the computed
index can be negative or collide with the index of a different,
valid coordinate tuple (here `[-1, 1]` and the valid `[2, 0]` both map
to flat index `2` in shape `[3, 3]`, and `[-1, 0]` maps to `-1 < 0`). -/
theorem rawIndex_negative_coordinate_unchecked :
    (∀ s xs : List ℤ, coordsLtB s xs → RawIndex s xs = .ok (rowMajorIndex s xs)) ∧
    RawIndex [3, 3] [-1, 1] = .ok 2 ∧
    RawIndex [3, 3] [2, 0] = .ok 2 ∧
    validCoordsB [3, 3] [2, 0] = true ∧
    RawIndex [3, 3] [-1, 0] = .ok (-1) ∧ (-1 : ℤ) < 0 := by
  refine ⟨?_, by rfl, by rfl, by decide, by rfl, by decide⟩
  intro s xs hlt
  have hlen := coordsLtB_length hlt
  rw [RawIndex, if_neg (by simp [rankZ, hlen])]
  rw [rawIndexAux_ok hlt 0 1]
  norm_num

theorem rawIndex_negative_coordinate_unchecked_witness :
    coordsLtB [3, 3] [-1, 1] = true ∧ RawIndex [3, 3] [-1, 1] = .ok 2 := by
  have h := rawIndex_negative_coordinate_unchecked
  have hv : rowMajorIndex [3, 3] [-1, 1] = 2 := by decide
  exact ⟨by decide, hv ▸ h.1 [3, 3] [-1, 1] (by decide)⟩

section TensorOps

/- Go `float64` is modelled by an arbitrary linear ordered field `K`
(`ℚ` is used for concrete evaluation); a tensor's `rawData` buffer is a
`List K`. -/
variable {K : Type} [LinearOrderedField K]

/-- The loop of `Tensor.MaxIndex` (tensor.go lines 291-301): running
state is the current best index and the running maximum, the latter
initialised to `-1.0`; for each position, `if max < rawData[i]` both
are updated.  (The loop bound `t.shape.Elements()` equals the buffer
length for a well-formed tensor.) -/
def maxIndexAux : List K → K → ℕ → ℕ → ℕ
  | [], _, idx, _ => idx
  | x :: xs, m, idx, pos =>
      if m < x then maxIndexAux xs x pos (pos + 1)
      else maxIndexAux xs m idx (pos + 1)

/-- `Tensor.MaxIndex` (tensor.go lines 291-301). -/
def MaxIndex (l : List K) : ℕ := maxIndexAux l (-1) 0 0

lemma maxIndexAux_of_all_le {xs : List K} {m : K}
    (h : ∀ x ∈ xs, x ≤ m) : ∀ idx pos, maxIndexAux xs m idx pos = idx := by
  induction xs with
  | nil => intro idx pos; rfl
  | cons x xs' ih =>
    intro idx pos
    rw [maxIndexAux, if_neg (not_lt.mpr (h x (by simp)))]
    exact ih (fun y hy => h y (by simp [hy])) idx (pos + 1)

lemma maxIndexAux_of_exists_gt {xs : List K} {m : K}
    (h : ∃ x ∈ xs, m < x) : ∀ idx pos,
    ∃ j < xs.length,
      maxIndexAux xs m idx pos = pos + j ∧
      m < xs.getD j 0 ∧
      (∀ i < j, xs.getD i 0 < xs.getD j 0) ∧
      (∀ i < xs.length, xs.getD i 0 ≤ xs.getD j 0) := by
  induction xs generalizing m with
  | nil => obtain ⟨x, hx, _⟩ := h; simp at hx
  | cons x xs' ih =>
    intro idx pos
    by_cases hmx : m < x
    · rw [maxIndexAux, if_pos hmx]
      by_cases hall : ∀ y ∈ xs', y ≤ x
      · rw [maxIndexAux_of_all_le hall]
        refine ⟨0, by simp, by simp, by simpa using hmx, by simp, ?_⟩
        intro i hi
        match i with
        | 0 => simp
        | i' + 1 =>
          simp only [List.getD_cons_succ, List.getD_cons_zero]
          have hmem : xs'.getD i' 0 ∈ xs' := by
            rw [List.getD_eq_getElem xs' 0 (by simpa using hi)]
            exact List.getElem_mem _
          exact hall _ hmem
      · push_neg at hall
        obtain ⟨y, hy, hxy⟩ := hall
        obtain ⟨j', hj'len, heq, hlt, hearly, hge⟩ :=
          ih (m := x) ⟨y, hy, hxy⟩ pos (pos + 1)
        refine ⟨j' + 1, by simpa using hj'len, by omega, ?_, ?_, ?_⟩
        · simpa using lt_trans hmx hlt
        · intro i hi
          match i with
          | 0 => simpa using hlt
          | i' + 1 =>
            simp only [List.getD_cons_succ]
            exact hearly i' (by omega)
        · intro i hi
          match i with
          | 0 => simpa using le_of_lt hlt
          | i' + 1 =>
            simp only [List.getD_cons_succ]
            exact hge i' (by simpa using hi)
    · rw [maxIndexAux, if_neg hmx]
      push_neg at hmx
      have h' : ∃ y ∈ xs', m < y := by
        obtain ⟨y, hy, hmy⟩ := h
        rcases List.mem_cons.mp hy with rfl | hy'
        · exact absurd hmy (not_lt.mpr hmx)
        · exact ⟨y, hy', hmy⟩
      obtain ⟨j', hj'len, heq, hlt, hearly, hge⟩ := ih h' idx (pos + 1)
      refine ⟨j' + 1, by simpa using hj'len, by omega, ?_, ?_, ?_⟩
      · simpa using hlt
      · intro i hi
        match i with
        | 0 => simpa using lt_of_le_of_lt hmx hlt
        | i' + 1 =>
          simp only [List.getD_cons_succ]
          exact hearly i' (by omega)
      · intro i hi
        match i with
        | 0 => simpa using le_of_lt (lt_of_le_of_lt hmx hlt)
        | i' + 1 =>
          simp only [List.getD_cons_succ]
          exact hge i' (by simpa using hi)

end TensorOps

/-- C1 counterexample: on the tensor `[-3, -1]` the first (and only)
maximum value `-1` sits at flat index `1`, yet `MaxIndex` returns `0`,
because its running maximum is initialised to `-1.0` and no element
exceeds it.  So `MaxIndex` does not return the index of the first
maximum for every non-empty tensor. -/
theorem maxIndex_not_argmax_for_all :
    MaxIndex [(-3 : ℚ), -1] = 0 ∧
    [(-3 : ℚ), -1].getD 0 0 < [(-3 : ℚ), -1].getD 1 0 := by
  constructor
  · show maxIndexAux [(-3 : ℚ), -1] (-1) 0 0 = 0
    rw [maxIndexAux, if_neg (by norm_num), maxIndexAux, if_neg (by norm_num)]
    rfl
  · norm_num

/-- C1 (amended): for every tensor containing some element above the
`-1.0` initialisation of the running maximum, `MaxIndex` returns the
index of the first maximum value in flat-scan order (ties broken by
first occurrence); any all-equal tensor yields index `0`
unconditionally; `[0.1, 0.9, 0.0]` yields index `1`. -/
theorem maxIndex_first_argmax (K : Type) [LinearOrderedField K] :
    (∀ l : List K, (∃ x ∈ l, (-1 : K) < x) →
        MaxIndex l < l.length ∧
        (∀ i < l.length, l.getD i 0 ≤ l.getD (MaxIndex l) 0) ∧
        (∀ i < MaxIndex l, l.getD i 0 < l.getD (MaxIndex l) 0)) ∧
    (∀ l : List K, (∀ x ∈ l, ∀ y ∈ l, x = y) → MaxIndex l = 0) ∧
    MaxIndex [(1 : K)/10, 9/10, 0] = 1 := by
  refine ⟨?_, ?_, ?_⟩
  · intro l hex
    obtain ⟨j, hjlen, heq, _, hearly, hge⟩ :=
      maxIndexAux_of_exists_gt (m := (-1 : K)) hex 0 0
    have hMI : MaxIndex l = j := by simpa [MaxIndex] using heq
    rw [hMI]
    exact ⟨hjlen, hge, hearly⟩
  · intro l hall
    cases l with
    | nil => rfl
    | cons x xs =>
      show maxIndexAux (x :: xs) (-1) 0 0 = 0
      have hx : ∀ y ∈ xs, y = x := fun y hy =>
        hall y (by simp [hy]) x (by simp)
      by_cases hmx : (-1 : K) < x
      · rw [maxIndexAux, if_pos hmx]
        exact maxIndexAux_of_all_le (fun y hy => le_of_eq (hx y hy)) 0 1
      · rw [maxIndexAux, if_neg hmx]
        push_neg at hmx
        exact maxIndexAux_of_all_le
          (fun y hy => le_trans (le_of_eq (hx y hy)) hmx) 0 1
  · show maxIndexAux [(1 : K)/10, 9/10, 0] (-1) 0 0 = 1
    rw [maxIndexAux, if_pos (by norm_num), maxIndexAux, if_pos (by norm_num),
      maxIndexAux, if_neg (by norm_num)]
    rfl

theorem maxIndex_first_argmax_witness :
    (∃ x ∈ [(1 : ℚ)/10, 9/10, 0], (-1 : ℚ) < x) ∧
    MaxIndex [(1 : ℚ)/10, 9/10, 0] = 1 ∧
    MaxIndex [(1 : ℚ)/10, 9/10, 0] < 3 := by
  have h := maxIndex_first_argmax ℚ
  have hex : ∃ x ∈ [(1 : ℚ)/10, 9/10, 0], (-1 : ℚ) < x :=
    ⟨9/10, by norm_num, by norm_num⟩
  exact ⟨hex, h.2.2, (h.1 _ hex).1⟩

section Optimizer

variable {K : Type} [LinearOrderedField K]

/-- `Tensor.MulBroadCast` (tensor.go): `res[i] = d * a`. -/
def MulBroadCast (l : List K) (a : K) : List K := l.map (fun d => d * a)

/-- `Tensor.SubTensor` (tensor.go): elementwise difference (the Go code
panics on a shape mismatch; the theorems below only use equal-length
buffers). -/
def SubTensor (l u : List K) : List K := List.zipWith (· - ·) l u

/-- `Tensor.AddTensor` (tensor.go): elementwise sum. -/
def AddTensor (l u : List K) : List K := List.zipWith (· + ·) l u

/-- `NewTensor` (tensor.go): a zero-filled buffer of the given length. -/
def NewTensorData (n : ℕ) : List K := List.replicate n 0

/-- `sgd.Update` (optimizer.go lines 29-32):
`params = params.SubTensor(grads.MulBroadCast(s.lr))`. -/
def sgdUpdate (lr : K) (params grads : List K) : List K :=
  SubTensor params (MulBroadCast grads lr)

/-- `momentumSGD.Update` (optimizer.go lines 52-56): the persistent
velocity is updated by
`velocity = velocity.MulBroadCast(momentum).SubTensor(grads.MulBroadCast(lr))`
and the new parameters are `params.AddTensor(velocity)`.  Returns
`(newParams, newVelocity)`. -/
def momentumSGDUpdate (lr momentum : K) (velocity params grads : List K) :
    List K × List K :=
  let v := SubTensor (MulBroadCast velocity momentum) (MulBroadCast grads lr)
  (AddTensor params v, v)

/-- The optimizer factories of optimizer.go (`sgdFactory`,
`momentumSGDFactory`), as a closed sum. -/
inductive OptimizerFactoryG (K : Type) : Type
  | sgdF (lr : K)
  | momentumF (lr momentum : K)
  deriving DecidableEq

/-- `MomentumSGD` (optimizer.go lines 71-80): special-cases
`momentum == 0` to return the plain SGD factory. -/
def MomentumSGD [DecidableEq K] (lr momentum : K) : OptimizerFactoryG K :=
  if momentum = 0 then .sgdF lr else .momentumF lr momentum

/-- The sequence of parameter tensors produced by iterating `sgd.Update`
over a list of gradient tensors (the initial parameters included). -/
def sgdParamsSeq (lr : K) (params : List K) (gl : List (List K)) :
    List (List K) :=
  gl.scanl (fun p g => sgdUpdate lr p g) params

/-- The sequence of parameter tensors produced by iterating
`momentumSGD.Update`, starting from the zero velocity allocated by
`momentumSGDFactory.Create` (`NewTensor(shape)`). -/
def momentumParamsSeq (lr momentum : K) (params : List K)
    (gl : List (List K)) : List (List K) :=
  (gl.scanl (fun st g => momentumSGDUpdate lr momentum st.2 st.1 g)
    (params, NewTensorData params.length)).map Prod.fst

lemma momentumSGDUpdate_zero_fst (lr : K) (v p g : List K)
    (hv : v.length = p.length) :
    (momentumSGDUpdate lr 0 v p g).1 = sgdUpdate lr p g := by
  apply List.ext_getElem
  · simp [momentumSGDUpdate, sgdUpdate, AddTensor, SubTensor, MulBroadCast, hv]
  · intro i h1 h2
    simp only [momentumSGDUpdate, sgdUpdate, AddTensor, SubTensor, MulBroadCast,
      List.getElem_zipWith, List.getElem_map]
    ring

lemma momentumSGDUpdate_zero_snd_length (lr : K) (v p g : List K)
    (hv : v.length = p.length) :
    (momentumSGDUpdate lr 0 v p g).2.length = (sgdUpdate lr p g).length := by
  simp [momentumSGDUpdate, sgdUpdate, SubTensor, AddTensor, MulBroadCast, hv]

lemma momentumScan_eq_sgdScan (lr : K) (gl : List (List K)) :
    ∀ (p v : List K), v.length = p.length →
    ((gl.scanl (fun st g => momentumSGDUpdate lr 0 st.2 st.1 g)
        (p, v)).map Prod.fst) = gl.scanl (fun q g => sgdUpdate lr q g) p := by
  induction gl with
  | nil => intro p v _; simp [List.scanl]
  | cons g gl' ih =>
    intro p v hv
    simp only [List.scanl, List.map_cons]
    congr 1
    rw [show (momentumSGDUpdate lr 0 v p g) =
        ((momentumSGDUpdate lr 0 v p g).1, (momentumSGDUpdate lr 0 v p g).2)
      from rfl]
    rw [momentumSGDUpdate_zero_fst lr v p g hv]
    exact ih (sgdUpdate lr p g) _
      (momentumSGDUpdate_zero_snd_length lr v p g hv)

/-- C7: with `momentum = 0`, iterating `momentumSGD.Update` from the
zero velocity produces exactly the same parameter sequence as iterating
plain `sgd.Update` over the same gradients, and the `MomentumSGD`
factory special-cases `momentum == 0` to return the plain SGD
factory. -/
theorem momentumSGD_zero_eq_sgd (K : Type) [LinearOrderedField K]
    [DecidableEq K] :
    (∀ (lr : K) (params : List K) (gl : List (List K)),
        momentumParamsSeq lr 0 params gl = sgdParamsSeq lr params gl) ∧
    (∀ lr : K, MomentumSGD lr 0 = OptimizerFactoryG.sgdF lr) := by
  constructor
  · intro lr params gl
    exact momentumScan_eq_sgdScan lr gl params (NewTensorData params.length)
      (by simp [NewTensorData])
  · intro lr
    simp [MomentumSGD]

end Optimizer

section Loss

variable {K : Type} [LinearOrderedField K]

/-- `Tensor.AddBroadCast` (tensor.go): `res[i] = d + a`. -/
def AddBroadCast (l : List K) (a : K) : List K := l.map (fun d => d + a)

/-- `Tensor.Log` (tensor.go): elementwise `math.Log`, modelled by an
abstract function `lg` on `K`. -/
def LogT (lg : K → K) (l : List K) : List K := l.map lg

/-- `Tensor.MulTensor` (tensor.go): elementwise product (the Go code
panics on a shape mismatch; the theorems below carry the shape
agreement as a hypothesis). -/
def MulTensor (l u : List K) : List K := List.zipWith (· * ·) l u

/-- `Tensor.DivTensor` (tensor.go): elementwise quotient. -/
def DivTensor (l u : List K) : List K := List.zipWith (· / ·) l u

/-- `Tensor.Sum` (tensor.go): `res := 0; for _, d := range rawData { res += d }`. -/
def SumT (l : List K) : K := l.foldl (· + ·) 0

/-- `Tensor.Clone` (tensor.go): an element-for-element copy of the
buffer (value-identical to the original). -/
def CloneT (l : List K) : List K := l.map (fun d => d)

omit [LinearOrderedField K] in
@[simp] lemma CloneT_eq (l : List K) : CloneT l = l := by
  simp [CloneT]

omit [LinearOrderedField K] in
@[simp] lemma map_CloneT (l : List (List K)) : l.map CloneT = l := by
  have h : (CloneT : List K → List K) = id := funext fun x => by simp
  rw [h, List.map_id]

/-- `const delta = 1e-7` (loss.go). -/
def delta : K := 1 / 10000000

/-- The per-sample term of `crossEntropyError.Call` / `Forward`
(loss.go): `-y[i].AddBroadCast(delta).Log().MulTensor(t[i]).Sum()`. -/
def crossEntropySample (lg : K → K) (y t : List K) : K :=
  -(SumT (MulTensor (LogT lg (AddBroadCast y delta)) t))

/-- `crossEntropyError.Call` (loss.go lines 22-39): the per-sample terms
are accumulated into `sum` (the goroutine/mutex accumulation is modelled
as a sequential fold, addition being commutative) and divided by the
batch size `len(t)`. -/
def crossEntropyCall (lg : K → K) (y t : List (List K)) : K :=
  (((List.range t.length).map
      (fun i => crossEntropySample lg (y.getD i []) (t.getD i []))).foldl
    (· + ·) 0) / (t.length : K)

/-- `crossEntropyError.Forward` (loss.go lines 41-61): same value as
`Call`, and clones of the predictions and targets are retained as the
loss state `(c.y, c.t)`. -/
def crossEntropyForward (lg : K → K) (y t : List (List K)) :
    K × List (List K) × List (List K) :=
  (crossEntropyCall lg y t, y.map CloneT, t.map CloneT)

/-- `crossEntropyError.Backward` (loss.go lines 64-76):
`d[i] = c.t[i].DivTensor(c.y[i]).MulBroadCast(-1)` for `i < len(c.y)`. -/
def crossEntropyBackward (cy ct : List (List K)) : List (List K) :=
  (List.range cy.length).map
    (fun i => MulBroadCast (DivTensor (ct.getD i []) (cy.getD i [])) (-1))

lemma foldl_add_eq (l : List K) : ∀ a : K, l.foldl (· + ·) a = a + l.sum := by
  induction l with
  | nil => intro a; simp
  | cons x xs ih =>
    intro a
    simp only [List.foldl_cons, List.sum_cons]
    rw [ih (a + x)]
    ring

lemma SumT_eq_sum (l : List K) : SumT l = l.sum := by
  simp [SumT, foldl_add_eq]

lemma sum_mulTensor (a b : List K) (h : a.length = b.length) :
    (MulTensor a b).sum =
      ((List.range b.length).map
        (fun j => b.getD j 0 * a.getD j 0)).sum := by
  induction a generalizing b with
  | nil =>
    cases b with
    | nil => simp [MulTensor]
    | cons y ys => simp at h
  | cons x xs ih =>
    cases b with
    | nil => simp at h
    | cons y ys =>
      simp only [List.length_cons] at h
      have hmap : List.map
          ((fun j => (y :: ys).getD j 0 * (x :: xs).getD j 0) ∘ Nat.succ)
          (List.range ys.length) =
          List.map (fun j => ys.getD j 0 * xs.getD j 0)
            (List.range ys.length) := by
        apply List.map_congr_left
        intro j _
        simp
      simp only [List.length_cons, List.range_succ_eq_map, List.map_cons,
        List.map_map, List.sum_cons, List.getD_cons_zero]
      rw [hmap, ← ih ys (by omega)]
      simp only [MulTensor, List.zipWith_cons_cons, List.sum_cons]
      ring

lemma crossEntropySample_eq (lg : K → K) (y t : List K)
    (h : y.length = t.length) :
    crossEntropySample lg y t =
      -(((List.range t.length).map
          (fun j => t.getD j 0 * lg (y.getD j 0 + delta))).sum) := by
  rw [crossEntropySample, SumT_eq_sum,
    sum_mulTensor _ _ (by simp [LogT, AddBroadCast, h])]
  congr 1
  refine congrArg List.sum ?_
  apply List.map_congr_left
  intro j hj
  have hjt : j < t.length := List.mem_range.mp hj
  have hjy : j < y.length := by omega
  congr 1
  rw [List.getD_eq_getElem _ 0 (by simpa [LogT, AddBroadCast] using hjy)]
  simp only [LogT, AddBroadCast, List.getElem_map]
  rw [List.getD_eq_getElem _ 0 hjy]

/-- C2: `crossEntropyError.Call` returns
`(1/batchSize) * Σ_i (−Σ_j t_ij · log(y_ij + 1e-7))`; `Forward` returns
the same value and retains clones of `y` and `t`; the following
`Backward` returns, for every sample, `−t_i / y_i` computed from those
clones, with no division by the batch size. -/
theorem crossEntropy_spec (K : Type) [LinearOrderedField K] (lg : K → K)
    (y t : List (List K)) (hlen : y.length = t.length)
    (hs : ∀ i < t.length, (y.getD i []).length = (t.getD i []).length) :
    crossEntropyCall lg y t =
      (1 / (t.length : K)) *
        ((List.range t.length).map (fun i =>
          -(((List.range (t.getD i []).length).map (fun j =>
              (t.getD i []).getD j 0 *
                lg ((y.getD i []).getD j 0 + delta))).sum))).sum ∧
    (crossEntropyForward lg y t).1 = crossEntropyCall lg y t ∧
    (crossEntropyForward lg y t).2.1 = y ∧
    (crossEntropyForward lg y t).2.2 = t ∧
    (crossEntropyBackward (crossEntropyForward lg y t).2.1
        (crossEntropyForward lg y t).2.2).length = y.length ∧
    (∀ i < y.length, ∀ j < (t.getD i []).length,
      ((crossEntropyBackward (crossEntropyForward lg y t).2.1
          (crossEntropyForward lg y t).2.2).getD i []).getD j 0 =
        -((t.getD i []).getD j 0 / (y.getD i []).getD j 0)) := by
  have hcy : (crossEntropyForward lg y t).2.1 = y := by
    simp [crossEntropyForward, CloneT]
  have hct : (crossEntropyForward lg y t).2.2 = t := by
    simp [crossEntropyForward, CloneT]
  refine ⟨?_, rfl, hcy, hct, ?_, ?_⟩
  · rw [crossEntropyCall, foldl_add_eq]
    rw [show ((List.range t.length).map
        (fun i => crossEntropySample lg (y.getD i []) (t.getD i []))) =
        ((List.range t.length).map (fun i =>
          -(((List.range (t.getD i []).length).map (fun j =>
              (t.getD i []).getD j 0 *
                lg ((y.getD i []).getD j 0 + delta))).sum))) from ?_]
    · field_simp
    · apply List.map_congr_left
      intro i hi
      exact crossEntropySample_eq lg _ _ (hs i (List.mem_range.mp hi))
  · simp [crossEntropyBackward, hcy, hct]
  · intro i hi j hj
    rw [hcy, hct]
    have hit : i < t.length := by omega
    rw [crossEntropyBackward,
      List.getD_eq_getElem _ [] (by simpa using hi), List.getElem_map,
      List.getElem_range]
    have hsl := hs i hit
    have hjlen : j < (MulBroadCast (DivTensor (t.getD i []) (y.getD i []))
        (-1)).length := by
      simp only [MulBroadCast, DivTensor, List.length_map, List.length_zipWith]
      omega
    rw [List.getD_eq_getElem _ 0 hjlen]
    simp only [MulBroadCast, DivTensor, List.getElem_map, List.getElem_zipWith]
    rw [List.getD_eq_getElem (t.getD i []) 0 hj,
      List.getD_eq_getElem (y.getD i []) 0 (by omega : j < (y.getD i []).length)]
    ring

theorem crossEntropy_spec_witness :
    ([[ (1 : ℚ)/2 ]].length = [[ (1 : ℚ) ]].length) ∧
    crossEntropyCall (fun x => x) [[(1 : ℚ)/2]] [[(1 : ℚ)]] =
      (1 / ((1 : ℚ))) *
        ((List.range 1).map (fun i =>
          -(((List.range ([[(1 : ℚ)]].getD i []).length).map (fun j =>
              ([[(1 : ℚ)]].getD i []).getD j 0 *
                (fun x => x) (([[(1 : ℚ)/2]].getD i []).getD j 0 + delta))).sum))).sum := by
  have h := crossEntropy_spec ℚ (fun x => x) [[(1 : ℚ)/2]] [[(1 : ℚ)]]
    (by decide) (by decide)
  exact ⟨by decide, by simpa using h.1⟩

end Loss

section Softmax

variable {K : Type} [LinearOrderedField K]

/-- `Tensor.Max` (tensor.go lines 280-289): `max := t.rawData[0]`, then
`for _, x := range t.rawData { if x > max { max = x } }` (the empty
buffer, which panics in Go, is modelled with `headD 0`; the softmax
claims only use non-empty samples). -/
def MaxT (l : List K) : K :=
  l.foldl (fun m x => if m < x then x else m) (l.headD 0)

/-- `Tensor.SubBroadCast` (tensor.go): `res[i] = d - a`. -/
def SubBroadCast (l : List K) (a : K) : List K := l.map (fun d => d - a)

/-- `Tensor.Exp` (tensor.go): elementwise `math.Exp`, modelled by an
abstract function `ef` on `K`. -/
def ExpT (ef : K → K) (l : List K) : List K := l.map ef

/-- The argument tensor handed to `.Exp()` inside `Softmax.Call`
(activation.go lines 119-131): `input.SubBroadCast(max)` with
`max := input.Max()`. -/
def softmaxCallExpInput (l : List K) : List K := SubBroadCast l (MaxT l)

/-- The argument tensor handed to `.Exp()` inside `Softmax.Forward`
(activation.go lines 133-146): the training path likewise computes
`max := input.Max()` and exponentiates `input.SubBroadCast(max)`. -/
def softmaxForwardExpInput (l : List K) : List K := SubBroadCast l (MaxT l)

/-- One sample of `Softmax.Call`: exponentiate the max-subtracted input
and normalise by the sum. -/
def softmaxCallSample (ef : K → K) (l : List K) : List K :=
  let e := ExpT ef (softmaxCallExpInput l)
  let s := SumT e
  e.map (fun f => f / s)

/-- One sample of `Softmax.Forward` (identical body in the source). -/
def softmaxForwardSample (ef : K → K) (l : List K) : List K :=
  let e := ExpT ef (softmaxForwardExpInput l)
  let s := SumT e
  e.map (fun f => f / s)

/-- `Softmax.Call` over a batch. -/
def softmaxCall (ef : K → K) (inputs : List (List K)) : List (List K) :=
  inputs.map (softmaxCallSample ef)

/-- `Softmax.Forward` over a batch (it additionally caches the outputs
for `Backward`; the cached value equals the returned one). -/
def softmaxForward (ef : K → K) (inputs : List (List K)) : List (List K) :=
  inputs.map (softmaxForwardSample ef)

/-- C6 counterexample: on the concrete sample `[0, 1]` the training-path
`Forward` hands `exp` the max-subtracted tensor `[-1, 0]` — not the raw
input `[0, 1]` — and this is exactly the tensor the inference-path
`Call` hands `exp`.  So `Forward` does not omit the max-subtraction. -/
theorem softmaxForward_does_not_omit_max :
    softmaxForwardExpInput [(0 : ℚ), 1] = [-1, 0] ∧
    softmaxForwardExpInput [(0 : ℚ), 1] ≠ [0, 1] ∧
    softmaxForwardExpInput [(0 : ℚ), 1] = softmaxCallExpInput [(0 : ℚ), 1] := by
  have hmax : MaxT [(0 : ℚ), 1] = 1 := by norm_num [MaxT]
  refine ⟨?_, ?_, rfl⟩
  · norm_num [softmaxForwardExpInput, SubBroadCast, hmax]
  · norm_num [softmaxForwardExpInput, SubBroadCast, hmax]

/-- C6 (amended): the training-path `Softmax.Forward` performs the same
per-sample max-subtraction as the inference-path `Call`: on every input
sample both paths hand `exp` the tensor `x - max(x)`, and the two paths
return identical outputs. -/
theorem softmax_call_forward_agree (K : Type) [LinearOrderedField K]
    (ef : K → K) :
    (∀ l : List K, softmaxForwardExpInput l = softmaxCallExpInput l) ∧
    (∀ l : List K, softmaxForwardExpInput l = SubBroadCast l (MaxT l)) ∧
    (∀ inputs : List (List K), softmaxForward ef inputs = softmaxCall ef inputs) :=
  ⟨fun _ => rfl, fun _ => rfl, fun _ => rfl⟩

end Softmax

section Dropout

variable {K : Type} [LinearOrderedField K] [FloorRing K]

/-- `active := int(float64(units) * (1 - d.Rate))` (layer.go line 204):
the Go conversion truncates toward zero, which on the non-negative
products arising from `rate ∈ [0, 1]` is the floor; for a negative
product both the Go loop (`n < active` with `active < 0`) and this
definition (`Int.toNat`) mask zero positions. -/
def dropoutActive (units : ℕ) (rate : K) : ℕ :=
  (⌊(units : K) * (1 - rate)⌋).toNat

/-- The per-sample masking loop of `Dropout.Forward` (layer.go lines
207-215): repeatedly draw `index := rand.Intn(units)` — modelled by the
stream of random draws `stream` and the position `pos` of the next
draw — skip an already-masked index, otherwise zero
`input.rawData[index]` and set `mask[index]`, until `active` positions
are masked.  `fuel` bounds the number of draws (the Go loop keeps
drawing unboundedly); `none` means the bound was exhausted. -/
def dropoutLoop (stream : ℕ → ℕ) (active : ℕ) :
    ℕ → ℕ → ℕ → List Bool → List K → Option (List Bool × List K × ℕ)
  | 0, pos, n, mask, data =>
      if n < active then none else some (mask, data, pos)
  | fuel + 1, pos, n, mask, data =>
      if n < active then
        if mask.getD (stream pos) false then
          dropoutLoop stream active fuel (pos + 1) n mask data
        else
          dropoutLoop stream active fuel (pos + 1) (n + 1)
            (mask.set (stream pos) true) (data.set (stream pos) 0)
      else some (mask, data, pos)

/-- The sample loop of `Dropout.Forward` (layer.go lines 205-217): each
sample of the batch is masked in turn, the random draws being shared
sequentially across samples. -/
def dropoutForwardAux (stream : ℕ → ℕ) (fuel active units : ℕ) :
    ℕ → List (List K) → Option (List (List Bool) × List (List K))
  | _, [] => some ([], [])
  | pos, d :: ds =>
      match dropoutLoop stream active fuel pos 0
          (List.replicate units false) d with
      | none => none
      | some (mask, d', pos') =>
          match dropoutForwardAux stream fuel active units pos' ds with
          | none => none
          | some (ms, os) => some (mask :: ms, d' :: os)

/-- `Dropout.Forward` (layer.go lines 201-219):
`units := inputs[0].shape.Elements()`,
`active := int(float64(units) * (1 - d.Rate))`, then the per-sample
loop; the zeroed tensors and the recorded masks are returned. -/
def dropoutForward (stream : ℕ → ℕ) (fuel : ℕ) (rate : K)
    (inputs : List (List K)) : Option (List (List Bool) × List (List K)) :=
  let units := (inputs.headD []).length
  dropoutForwardAux stream fuel (dropoutActive units rate) units 0 inputs

/-- The inner zeroing of `Dropout.Backward` (layer.go lines 222-227):
`for j, drop := range d.mask[i] { if drop { dout.rawData[j] = 0 } }`. -/
def dropMaskZero : List Bool → List K → List K
  | [], d => d
  | _ :: _, [] => []
  | b :: bs, x :: xs => (if b then 0 else x) :: dropMaskZero bs xs

/-- `Dropout.Backward` (layer.go lines 221-230): iterates the upstream
gradient, zeroing it at the positions of the stored mask. -/
def dropoutBackward (masks : List (List Bool)) (douts : List (List K)) :
    List (List K) :=
  (List.range douts.length).map
    (fun i => dropMaskZero (masks.getD i []) (douts.getD i []))

lemma getD_set_self {α : Type} (l : List α) (i : ℕ) (a d : α)
    (h : i < l.length) : (l.set i a).getD i d = a := by
  rw [List.getD_eq_getElem _ d (by simpa using h)]
  simp

lemma getD_set_ne {α : Type} (l : List α) {i j : ℕ} (a d : α)
    (h : i ≠ j) : (l.set i a).getD j d = l.getD j d := by
  by_cases hj : j < l.length
  · rw [List.getD_eq_getElem _ d (by simpa using hj),
      List.getD_eq_getElem _ d hj]
    simp [List.getElem_set, h]
  · rw [List.getD_eq_default _ d (by simp; omega),
      List.getD_eq_default _ d (by omega)]

lemma getD_replicate_false (u j : ℕ) :
    (List.replicate u false).getD j false = false := by
  by_cases h : j < u
  · rw [List.getD_eq_getElem _ _ (by simpa using h)]
    simp
  · rw [List.getD_eq_default _ _ (by simp; omega)]

lemma count_set_true (mask : List Bool) (j : ℕ) (hj : j < mask.length)
    (hf : mask.getD j false = false) :
    (mask.set j true).count true = mask.count true + 1 := by
  induction mask generalizing j with
  | nil => simp at hj
  | cons b bs ih =>
    cases j with
    | zero =>
      simp only [List.getD_cons_zero] at hf
      subst hf
      simp [List.count_cons]
    | succ j' =>
      simp only [List.getD_cons_succ] at hf
      simp only [List.set_cons_succ, List.count_cons,
        ih j' (by simpa using hj) hf]
      omega

omit [FloorRing K] in
lemma dropoutLoop_spec (stream : ℕ → ℕ) (active units : ℕ)
    (hstream : ∀ i, stream i < units) (orig : List K)
    (fuel : ℕ) :
    ∀ (pos n : ℕ) (mask : List Bool) (data : List K),
      mask.length = units → data.length = units →
      mask.count true = n → n ≤ active →
      (∀ j, data.getD j 0 = if mask.getD j false then 0 else orig.getD j 0) →
      ∀ res : List Bool × List K × ℕ,
        dropoutLoop stream active fuel pos n mask data = some res →
        res.1.count true = active ∧ res.1.length = units ∧
        res.2.1.length = units ∧
        (∀ j, res.2.1.getD j 0 =
          if res.1.getD j false then 0 else orig.getD j 0) := by
  induction fuel with
  | zero =>
    intro pos n mask data hmlen hdlen hcount hn hdata res hrun
    rw [dropoutLoop] at hrun
    by_cases hlt : n < active
    · rw [if_pos hlt] at hrun; exact absurd hrun (by simp)
    · rw [if_neg hlt] at hrun
      obtain rfl : (mask, data, pos) = res := by simpa using hrun
      have hca : mask.count true = active := by omega
      exact ⟨hca, hmlen, hdlen, hdata⟩
  | succ f ih =>
    intro pos n mask data hmlen hdlen hcount hn hdata res hrun
    rw [dropoutLoop] at hrun
    by_cases hlt : n < active
    · rw [if_pos hlt] at hrun
      by_cases hmasked : mask.getD (stream pos) false
      · rw [if_pos hmasked] at hrun
        exact ih (pos + 1) n mask data hmlen hdlen hcount hn hdata res hrun
      · rw [if_neg hmasked] at hrun
        have hidx : stream pos < mask.length := hmlen ▸ hstream pos
        refine ih (pos + 1) (n + 1) _ _ (by simp [hmlen]) (by simp [hdlen])
          ?_ (by omega) ?_ res hrun
        · rw [count_set_true mask (stream pos) hidx (by simpa using hmasked)]
          omega
        · intro j
          by_cases hji : stream pos = j
          · subst hji
            rw [getD_set_self _ _ _ _ (by omega : stream pos < data.length),
              getD_set_self _ _ _ _ hidx]
            simp
          · rw [getD_set_ne _ _ _ hji, getD_set_ne _ _ _ hji]
            exact hdata j
    · rw [if_neg hlt] at hrun
      obtain rfl : (mask, data, pos) = res := by simpa using hrun
      have hca : mask.count true = active := by omega
      exact ⟨hca, hmlen, hdlen, hdata⟩

omit [FloorRing K] in
lemma dropoutForwardAux_spec (stream : ℕ → ℕ) (fuel active units : ℕ)
    (hstream : ∀ i, stream i < units) (hact : active ≤ units) :
    ∀ (inputs : List (List K)) (pos : ℕ),
      (∀ s ∈ inputs, s.length = units) →
      ∀ res : List (List Bool) × List (List K),
        dropoutForwardAux stream fuel active units pos inputs = some res →
        res.1.length = inputs.length ∧ res.2.length = inputs.length ∧
        ∀ i < inputs.length,
          (res.1.getD i []).count true = active ∧
          (res.1.getD i []).length = units ∧
          (∀ j, (res.2.getD i []).getD j 0 =
            if (res.1.getD i []).getD j false then 0
            else (inputs.getD i []).getD j 0) := by
  intro inputs
  induction inputs with
  | nil =>
    intro pos _ res hrun
    obtain rfl : (([], []) : List (List Bool) × List (List K)) = res := by
      simpa [dropoutForwardAux] using hrun
    simp
  | cons d ds ihs =>
    intro pos hlen res hrun
    rw [dropoutForwardAux] at hrun
    rcases h1 : dropoutLoop stream active fuel pos 0
        (List.replicate units false) d with _ | ⟨⟨mask, d', pos'⟩⟩
    · simp only [h1] at hrun
      exact absurd hrun (by simp)
    · simp only [h1] at hrun
      rcases h2 : dropoutForwardAux stream fuel active units pos' ds
        with _ | ⟨⟨ms, os⟩⟩
      · simp only [h2] at hrun
        exact absurd hrun (by simp)
      · simp only [h2] at hrun
        obtain rfl : ((mask :: ms, d' :: os) :
            List (List Bool) × List (List K)) = res := by simpa using hrun
        have hsample := dropoutLoop_spec stream active units hstream d fuel
          pos 0 (List.replicate units false) d (by simp) (hlen d (by simp))
          (by simp [List.count_replicate]) (by omega)
          (fun j => by rw [getD_replicate_false]; simp)
          (mask, d', pos') h1
        have hrest := ihs pos' (fun s hs => hlen s (by simp [hs]))
          (ms, os) h2
        refine ⟨by simpa using hrest.1, by simpa using hrest.2.1, ?_⟩
        intro i hi
        match i with
        | 0 =>
          exact ⟨hsample.1, hsample.2.1, fun j => hsample.2.2.2 j⟩
        | i' + 1 =>
          simp only [List.getD_cons_succ]
          exact hrest.2.2 i' (by simpa using hi)

omit [FloorRing K] in
lemma dropMaskZero_getD (mask : List Bool) (d : List K) :
    ∀ j, (dropMaskZero mask d).getD j 0 =
      if mask.getD j false then 0 else d.getD j 0 := by
  induction mask generalizing d with
  | nil => intro j; simp [dropMaskZero, getD_replicate_false]
  | cons b bs ih =>
    intro j
    cases d with
    | nil =>
      rw [show dropMaskZero (b :: bs) ([] : List K) = [] from rfl]
      cases hb : (b :: bs).getD j false <;> simp
    | cons x xs =>
      rw [show dropMaskZero (b :: bs) (x :: xs) =
        (if b then 0 else x) :: dropMaskZero bs xs from rfl]
      cases j with
      | zero => simp
      | succ j' => simpa using ih xs j'

/-- C5: with `rate ∈ [0,1]`, every sample of length `u`, and a
terminating run of the masking loop, `Dropout.Forward` records, for
every sample, a mask with exactly `floor(u * (1 - rate))` set positions
and zeroes the sample exactly at those positions; `Dropout.Backward`
zeroes exactly the same set of positions of any upstream gradient batch;
and for `rate = 0.5`, `u = 100` the count is exactly `50`. -/
theorem dropout_mask_spec (K : Type) [LinearOrderedField K] [FloorRing K]
    (stream : ℕ → ℕ) (fuel : ℕ) (rate : K) (inputs : List (List K)) (u : ℕ)
    (hr0 : 0 ≤ rate) (hr1 : rate ≤ 1)
    (hu : ∀ s ∈ inputs, s.length = u)
    (hstream : ∀ i, stream i < u)
    (masks : List (List Bool)) (outs : List (List K))
    (hrun : dropoutForward stream fuel rate inputs = some (masks, outs)) :
    (∀ i < inputs.length,
      (masks.getD i []).count true = dropoutActive u rate ∧
      (∀ j, (outs.getD i []).getD j 0 =
        if (masks.getD i []).getD j false then 0
        else (inputs.getD i []).getD j 0)) ∧
    (∀ douts : List (List K), ∀ i < douts.length, ∀ j,
      ((dropoutBackward masks douts).getD i []).getD j 0 =
        if (masks.getD i []).getD j false then 0
        else (douts.getD i []).getD j 0) ∧
    dropoutActive 100 ((1 : K) / 2) = 50 := by
  have hunits : (inputs.headD []).length = u ∨ inputs = [] := by
    cases inputs with
    | nil => exact Or.inr rfl
    | cons d ds => exact Or.inl (hu d (by simp))
  have hact_le : dropoutActive u rate ≤ u := by
    rw [dropoutActive]
    have h1 : (u : K) * (1 - rate) ≤ (u : K) := by nlinarith [Nat.cast_nonneg (α := K) u]
    have h2 : ⌊(u : K) * (1 - rate)⌋ ≤ ⌊(u : K)⌋ := Int.floor_le_floor h1
    rw [Int.floor_natCast] at h2
    omega
  refine ⟨?_, ?_, ?_⟩
  · rcases hunits with hunits | rfl
    · rw [dropoutForward, hunits] at hrun
      have h := dropoutForwardAux_spec stream fuel (dropoutActive u rate) u
        hstream hact_le inputs 0 hu (masks, outs) hrun
      intro i hi
      exact ⟨(h.2.2 i hi).1, (h.2.2 i hi).2.2⟩
    · intro i hi
      simp at hi
  · intro douts i hi j
    rw [dropoutBackward, List.getD_eq_getElem _ [] (by simpa using hi),
      List.getElem_map, List.getElem_range]
    exact dropMaskZero_getD _ _ j
  · rw [dropoutActive]
    have h50 : ((100 : ℕ) : K) * (1 - 1 / 2) = ((50 : ℕ) : K) := by
      push_cast
      ring
    rw [h50, Int.floor_natCast]
    rfl

theorem dropout_mask_spec_witness :
    (0 : ℚ) ≤ 1 / 2 ∧ (1 : ℚ) / 2 ≤ 1 ∧
    ([[true, false]].getD 0 []).count true = dropoutActive 2 ((1 : ℚ) / 2) ∧
    dropoutActive 100 ((1 : ℚ) / 2) = 50 := by
  have hact : dropoutActive 2 ((1 : ℚ) / 2) = 1 := by
    rw [dropoutActive]
    have h1 : ((2 : ℕ) : ℚ) * (1 - 1 / 2) = ((1 : ℕ) : ℚ) := by
      push_cast
      ring
    rw [h1, Int.floor_natCast]
    rfl
  have hloop : dropoutLoop (fun _ => 0) 1 3 0 0 (List.replicate 2 false)
      [(5 : ℚ), 7] = some ([true, false], [0, 7], 1) := by
    norm_num [dropoutLoop, List.replicate, List.set]
  have hrun : dropoutForward (fun _ => 0) 3 ((1 : ℚ) / 2) [[5, 7]] =
      some ([[true, false]], [[0, 7]]) := by
    rw [dropoutForward]
    simp only [List.headD_cons, List.length_cons, List.length_nil, hact]
    rw [dropoutForwardAux]
    simp only [hloop]
    rfl
  have h := dropout_mask_spec ℚ (fun _ => 0) 3 (1 / 2) [[5, 7]] 2
    (by norm_num) (by norm_num)
    (fun s hs => by rw [List.mem_singleton] at hs; subst hs; rfl)
    (fun i => by norm_num)
    [[true, false]] [[0, 7]] hrun
  exact ⟨by norm_num, by norm_num, (h.1 0 (by norm_num)).1, h.2.2⟩

end Dropout

section Model

/- Abstract types for the training orchestration of `Sequential`
(model.go lines 185-219): `T` is a sample tensor (`*Tensor`), `L` a
layer's mutable state, `Λ` the loss's mutable state, `R` the learning
rate, `V` the scalar type of the reported loss/accuracy values.  The
layer interface (layer.go) is a record of function parameters:
`Forward`/`Backward` update the layer's caches and transform the batch,
`Call` is stateless in every layer of the repository, `Update` consumes
the learning rate. -/
variable {T L Λ R V : Type} [Inhabited L]
variable (call : L → List T → List T)
variable (fw : L → List T → L × List T)
variable (bw : L → List T → L × List T)
variable (upd : R → L → L)
variable (lossFw : Λ → List T → List T → Λ)
variable (lossBw : Λ → List T)
variable (lossCall : Λ → List T → List T → V)
variable (accuracy : List T → List T → V)
variable (lr : R)

/-- The forward loop of `Sequential.Update` (model.go lines 209-211):
`for _, layer := range s.layers { x = layer.Forward(x) }`, each call
updating the layer's cached state and producing the next batch. -/
def forwardLayers : List L → List T → List L × List T
  | [], x => ([], x)
  | l :: ls, x =>
      let r := fw l x
      let rest := forwardLayers ls r.2
      (r.1 :: rest.1, rest.2)

/-- The backward loop of `Sequential.Update` (model.go lines 214-218) as
written in the source: the index-based downward loop
`for i := len(s.layers)-1; i >= 0; i--` replaces `dout` by
`s.layers[i].Backward(dout)` and immediately calls
`s.layers[i].Update(s.LearningRate)`. -/
def backwardLoopGo : ℕ → List L → List T → List L × List T
  | 0, ls, dout => (ls, dout)
  | i + 1, ls, dout =>
      let r := bw (ls.getD i default) dout
      backwardLoopGo i (ls.set i (upd lr r.1)) r.2

/-- The backward phase of `Sequential.Update`, started at
`len(s.layers)`. -/
def backwardLayersGo (ls : List L) (dout : List T) : List L × List T :=
  backwardLoopGo bw upd lr ls.length ls dout

/-- The claim's description of the backward phase: visit the layers in
reverse order, each layer's `Backward` (chaining the returned gradient)
immediately followed by that same layer's `Update`. -/
def backwardLayersSpec : List L → List T → List L × List T
  | [], dout => ([], dout)
  | l :: ls, dout =>
      let rest := backwardLayersSpec ls dout
      let r := bw l rest.2
      (upd lr r.1 :: rest.1, r.2)

lemma backwardLoopGo_cons (k : ℕ) :
    ∀ (p : L) (ls : List L) (dout : List T),
      backwardLoopGo bw upd lr (k + 1) (p :: ls) dout =
        (let r := backwardLoopGo bw upd lr k ls dout
         let q := bw p r.2
         (upd lr q.1 :: r.1, q.2)) := by
  induction k with
  | zero => intro p ls dout; rfl
  | succ k ih =>
    intro p ls dout
    rw [backwardLoopGo]
    simp only [List.getD_cons_succ, List.set_cons_succ]
    rw [ih]
    rw [show backwardLoopGo bw upd lr (k + 1) ls dout =
      backwardLoopGo bw upd lr k
        (ls.set k (upd lr (bw (ls.getD k default) dout).1))
        (bw (ls.getD k default) dout).2 from rfl]

lemma backwardLayersGo_eq_spec :
    ∀ (ls : List L) (dout : List T),
      backwardLayersGo bw upd lr ls dout = backwardLayersSpec bw upd lr ls dout := by
  intro ls
  induction ls with
  | nil => intro dout; rfl
  | cons p ls' ih =>
    intro dout
    rw [backwardLayersGo, List.length_cons, backwardLoopGo_cons,
      backwardLayersSpec]
    rw [show backwardLoopGo bw upd lr ls'.length ls' dout =
      backwardLayersGo bw upd lr ls' dout from rfl, ih dout]

/-- `Sequential.Predict` (model.go lines 221-227): run every layer's
stateless `Call` in order. -/
def predictGo (ls : List L) (x : List T) : List T :=
  ls.foldl (fun b l => call l b) x

/-- `Sequential.Update` (model.go lines 208-219): forward through all
layers in list order, then `s.loss.Forward(x, t)` (its returned value is
discarded; its state is kept for `Backward`), then
`dout := s.loss.Backward()`, then the downward backward/update loop. -/
def seqUpdateGo (ls : List L) (lo : Λ) (x t : List T) : List L × Λ :=
  let f := forwardLayers fw ls x
  let lo' := lossFw lo f.2 t
  let dout := lossBw lo'
  let r := backwardLayersGo bw upd lr f.1 dout
  (r.1, lo')

/-- The claim's description of one training step: every layer's
`Forward` in list order, the loss's `Forward` then `Backward`, then the
layers in reverse order, `Backward` immediately followed by `Update`. -/
def seqUpdateSpec (ls : List L) (lo : Λ) (x t : List T) : List L × Λ :=
  let f := forwardLayers fw ls x
  let lo' := lossFw lo f.2 t
  let dout := lossBw lo'
  let r := backwardLayersSpec bw upd lr f.1 dout
  (r.1, lo')

/-- The step loop of `Sequential.Fit` (model.go lines 191-199), by
recursion on the remaining step count `n` with current step index `k`:
each step slices `x[step*b:(step+1)*b]` and `t[...]`, feeds them to
`Predict`/`Loss`/`Accuracy` for the progress report (stateless; their
values are printed and discarded) and then to `s.Update`. -/
def fitStepsGo (b : ℕ) (x t : List T) :
    ℕ → ℕ → List L × Λ → List L × Λ
  | _, 0, st => st
  | k, n + 1, st =>
      let xs := (x.drop (k * b)).take b
      let ts := (t.drop (k * b)).take b
      let y := predictGo call st.1 xs
      let _loss := lossCall st.2 y ts
      let _acc := accuracy y ts
      fitStepsGo b x t (k + 1) n
        (seqUpdateGo fw bw upd lossFw lossBw lr st.1 st.2 xs ts)

/-- `Sequential.Fit` (model.go lines 185-206): for each epoch,
`steps := len(x) / batchSize` consecutive steps (integer division, so a
trailing partial batch is dropped), then a whole-training-set
`Predict`/`Loss`/`Accuracy` report (stateless, discarded). -/
def fitGo (b : ℕ) (x t : List T) : ℕ → List L × Λ → List L × Λ
  | 0, st => st
  | e + 1, st =>
      let st' := fitStepsGo call fw bw upd lossFw lossBw lossCall accuracy lr
        b x t 0 (x.length / b) st
      let y := predictGo call st'.1 x
      let _loss := lossCall st'.2 y t
      let _acc := accuracy y t
      fitGo b x t e st'

/-- The claim's batch decomposition: the `floor(n/b)` consecutive slices
`x[k*b:(k+1)*b]`, in order. -/
def batchPairs (b : ℕ) (x t : List T) : List (List T × List T) :=
  (List.range (x.length / b)).map
    (fun k => ((x.drop (k * b)).take b, (t.drop (k * b)).take b))

/-- The claim's description of one epoch: fold the training step over
the batch list, in order. -/
def fitEpochSpec (b : ℕ) (x t : List T) (st : List L × Λ) : List L × Λ :=
  (batchPairs b x t).foldl
    (fun st p => seqUpdateSpec fw bw upd lossFw lossBw lr st.1 st.2 p.1 p.2)
    st

/-- The claim's description of `Fit`: the epoch body iterated
`epochs` times. -/
def fitSpec (b : ℕ) (x t : List T) : ℕ → List L × Λ → List L × Λ
  | 0, st => st
  | e + 1, st =>
      fitSpec b x t e (fitEpochSpec fw bw upd lossFw lossBw lr b x t st)

lemma seqUpdateGo_eq_spec (ls : List L) (lo : Λ) (x t : List T) :
    seqUpdateGo fw bw upd lossFw lossBw lr ls lo x t =
      seqUpdateSpec fw bw upd lossFw lossBw lr ls lo x t := by
  rw [seqUpdateGo, seqUpdateSpec, backwardLayersGo_eq_spec]

lemma fitStepsGo_eq_foldl (b : ℕ) (x t : List T) :
    ∀ (n k : ℕ) (st : List L × Λ),
      fitStepsGo call fw bw upd lossFw lossBw lossCall accuracy lr
          b x t k n st =
        (List.range' k n).foldl
          (fun st j => seqUpdateSpec fw bw upd lossFw lossBw lr st.1 st.2
            ((x.drop (j * b)).take b) ((t.drop (j * b)).take b)) st := by
  intro n
  induction n with
  | zero => intro k st; rfl
  | succ n ih =>
    intro k st
    rw [fitStepsGo, List.range'_succ, List.foldl_cons, ← ih (k + 1),
      seqUpdateGo_eq_spec]

/-- C3: for every batch size `b > 0`, `Sequential.Fit` is, per epoch,
exactly the in-order fold of the training step over the
`len(x) / b` consecutive slices `x[k*b:(k+1)*b]` (a trailing partial
batch is dropped), where the training step runs every layer's `Forward`
in list order, then the loss's `Forward` and `Backward`, then visits the
layers in reverse order calling each layer's `Backward` (chaining the
returned gradient) immediately followed by that same layer's `Update`;
and the batch list has exactly `len(x) / b` entries. -/
theorem fit_processes_batches_in_order
    (T L Λ R V : Type) [Inhabited L]
    (call : L → List T → List T) (fw bw : L → List T → L × List T)
    (upd : R → L → L) (lossFw : Λ → List T → List T → Λ)
    (lossBw : Λ → List T) (lossCall : Λ → List T → List T → V)
    (accuracy : List T → List T → V) (lr : R)
    (b : ℕ) (hb : 0 < b) (x t : List T) (epochs : ℕ) (st : List L × Λ) :
    fitGo call fw bw upd lossFw lossBw lossCall accuracy lr
        b x t epochs st =
      fitSpec fw bw upd lossFw lossBw lr b x t epochs st ∧
    (batchPairs b x t : List (List T × List T)).length = x.length / b ∧
    (∀ k < x.length / b,
      (batchPairs b x t).getD k ([], []) =
        ((x.drop (k * b)).take b, (t.drop (k * b)).take b)) := by
  refine ⟨?_, by simp [batchPairs], ?_⟩
  · induction epochs generalizing st with
    | zero => rfl
    | succ e ih =>
      rw [fitGo, fitSpec]
      rw [show fitStepsGo call fw bw upd lossFw lossBw lossCall accuracy lr
          b x t 0 (x.length / b) st =
          fitEpochSpec fw bw upd lossFw lossBw lr b x t st from ?_]
      · exact ih _
      · rw [fitStepsGo_eq_foldl, fitEpochSpec, batchPairs, List.foldl_map,
          List.range_eq_range']
  · intro k hk
    rw [batchPairs, List.getD_eq_getElem _ _ (by simpa using hk),
      List.getElem_map, List.getElem_range]

theorem fit_processes_batches_in_order_witness :
    0 < 1 ∧
    fitGo (T := ℕ) (L := ℕ) (Λ := ℕ) (R := ℕ) (V := ℕ)
        (fun _ bch => bch) (fun l bch => (l + 1, bch))
        (fun l bch => (l, bch)) (fun _ l => l) (fun lo _ _ => lo)
        (fun _ => []) (fun _ _ _ => 0) (fun _ _ => 0) 1 1 [0, 1] [0, 1] 1
        ([0], 0) =
      fitSpec (fun l bch => (l + 1, bch)) (fun l bch => (l, bch))
        (fun _ l => l) (fun lo _ _ => lo) (fun _ => []) 1 1 [0, 1] [0, 1] 1
        ([0], 0) :=
  ⟨by decide,
    (fit_processes_batches_in_order ℕ ℕ ℕ ℕ ℕ (fun _ bch => bch)
      (fun l bch => (l + 1, bch)) (fun l bch => (l, bch)) (fun _ l => l)
      (fun lo _ _ => lo) (fun _ => []) (fun _ _ _ => 0) (fun _ _ => 0) 1 1
      (by decide) [0, 1] [0, 1] 1 ([0], 0)).1⟩

end Model

section Build

/-- The per-parameter state written by `Dense.Init` (layer.go lines
73-89): the recorded input/output shapes, the allocated `weight` and
`bias` tensor shapes, and the shapes the optimizer factory bound `OptW`
and `OptB` to.  (The random weight contents drawn from `rand.Float64`
are irrelevant to the build claims and are abstracted by the allocated
shape.) -/
structure DenseState where
  inputShape : ShapeZ
  outputShape : ShapeZ
  weightShape : ShapeZ
  biasShape : ShapeZ
  optWShape : ShapeZ
  optBShape : ShapeZ
  deriving DecidableEq

/-- The layer variants relevant to `Sequential.Build`, carrying the
state their `Init` methods write; `none` is the zero value of a freshly
added layer. -/
inductive LayerC : Type
  | inputL (st : Option (ShapeZ × ShapeZ))
  | flattenL (st : Option (ShapeZ × ShapeZ))
  | denseL (units : ℤ) (st : Option DenseState)
  deriving DecidableEq

/-- `Init` of the layers (layer.go): `Input.Init` and `Flatten.Init`
record the shapes and never fail; `Dense.Init` (lines 73-89) first
rejects a non-rank-1 input with `invalid rank <rank>` — leaving the
layer untouched — and otherwise records the shapes, allocates
`weight : (inputShape[0], units)` and `bias : (units)`, and binds one
optimizer per parameter shape via the model's factory. -/
def layerInit : LayerC → ShapeZ → Except String LayerC
  | .inputL _, sh => .ok (.inputL (some (sh, sh)))
  | .flattenL _, sh => .ok (.flattenL (some (sh, [elementsZ sh])))
  | .denseL units _, sh =>
      if rankZ sh ≠ 1 then .error ("invalid rank " ++ toString (rankZ sh))
      else
        .ok (.denseL units (some
          { inputShape := sh, outputShape := [units],
            weightShape := [sh.headD 0, units], biasShape := [units],
            optWShape := [sh.headD 0, units], optBShape := [units] }))

/-- `OutputShape()` (layer.go): reads the recorded output shape (`nil`,
modelled `[]`, before `Init`). -/
def layerOutputShape : LayerC → ShapeZ
  | .inputL st => (st.map Prod.snd).getD []
  | .flattenL st => (st.map Prod.snd).getD []
  | .denseL _ st => (st.map DenseState.outputShape).getD []

/-- The variant name `reflect.TypeOf(layer)` interpolates into the build
error (a pointer type prints as `*nn.<Type>`). -/
def layerVariantName : LayerC → String
  | .inputL _ => "*nn.Input"
  | .flattenL _ => "*nn.Flatten"
  | .denseL _ _ => "*nn.Dense"

/-- `Sequential` (model.go lines 164-170), restricted to the fields
`Build` touches: the model input shape, the layer list, and the loss
field (`none` models the nil interface before `s.loss = loss` runs). -/
structure SeqC where
  inputShape : ShapeZ
  layers : List LayerC
  loss : Option Unit
  deriving DecidableEq

/-- The loop of `Sequential.Build` over `s.layers[1:]` (model.go lines
249-255): the first failing `Init` stops the loop and wraps the error as
`build error layer <i+1> <variant> <err>`; layers initialised before the
failure keep their new state, the failing and later layers are left as
they were. -/
def buildAux : ℕ → ShapeZ → List LayerC → List LayerC × Option String
  | _, _, [] => ([], none)
  | i, sh, l :: ls =>
      match layerInit l sh with
      | .error e =>
          (l :: ls, some ("build error layer " ++ toString (i + 1) ++ " " ++
            layerVariantName l ++ " " ++ e))
      | .ok l' =>
          let r := buildAux (i + 1) (layerOutputShape l') ls
          (l' :: r.1, r.2)

/-- `Sequential.Build` (model.go lines 243-260): `s.layers[0].Init` (its
error is returned unwrapped), then the wrapped loop over the remaining
layers, and only on full success the assignment `s.loss = loss`.  The
returned pair is the post-call model state (Go mutates the receiver in
place) and the returned error. -/
def Build (s : SeqC) : SeqC × Option String :=
  match hl : s.layers with
  | [] => (s, some "panic: index out of range")
  | l0 :: rest =>
      match layerInit l0 s.inputShape with
      | .error e => (s, some e)
      | .ok l0' =>
          let r := buildAux 0 (layerOutputShape l0') rest
          match r.2 with
          | some e => ({ s with layers := l0' :: r.1 }, some e)
          | none => ({ s with layers := l0' :: r.1, loss := some () }, none)

/-- The successful initialisation chain of a layer prefix: every `Init`
accepted the propagated shape; returns the initialised layers and the
shape propagated past them. -/
def initPrefix : ShapeZ → List LayerC → Except String (List LayerC × ShapeZ)
  | sh, [] => .ok ([], sh)
  | sh, l :: ls =>
      match layerInit l sh with
      | .error e => .error e
      | .ok l' =>
          match initPrefix (layerOutputShape l') ls with
          | .error e => .error e
          | .ok (ls', sh') => .ok (l' :: ls', sh')

lemma buildAux_fail :
    ∀ (pre : List LayerC) (i : ℕ) (sh : ShapeZ) (pre' : List LayerC)
      (sh' : ShapeZ),
      initPrefix sh pre = .ok (pre', sh') →
      ∀ (lbad : LayerC) (post : List LayerC) (e : String),
        layerInit lbad sh' = .error e →
        buildAux i sh (pre ++ lbad :: post) =
          (pre' ++ lbad :: post,
            some ("build error layer " ++ toString (i + pre.length + 1) ++
              " " ++ layerVariantName lbad ++ " " ++ e)) := by
  intro pre
  induction pre with
  | nil =>
    intro i sh pre' sh' hpre lbad post e hbad
    obtain ⟨rfl, rfl⟩ : pre' = [] ∧ sh = sh' := by
      simpa [initPrefix] using hpre
    simp only [List.nil_append, buildAux, hbad]
    simp
  | cons l pre₁ ih =>
    intro i sh pre' sh' hpre lbad post e hbad
    rw [initPrefix] at hpre
    rcases hinit : layerInit l sh with e₀ | l'
    · simp only [hinit] at hpre
      exact absurd hpre (by simp)
    · simp only [hinit] at hpre
      rcases hrest : initPrefix (layerOutputShape l') pre₁ with e₁ | ⟨pre₁', sh₁⟩
      · simp only [hrest] at hpre
        exact absurd hpre (by simp)
      · simp only [hrest] at hpre
        obtain ⟨rfl, rfl⟩ : l' :: pre₁' = pre' ∧ sh₁ = sh' := by
          simpa using hpre
        rw [List.cons_append, buildAux]
        simp only [hinit]
        rw [ih (i + 1) (layerOutputShape l') pre₁' sh₁ hrest lbad post e hbad]
        have harith : i + 1 + pre₁.length + 1 = i + (l :: pre₁).length + 1 := by
          simp only [List.length_cons]
          omega
        rw [harith]
        simp

/-- C8 counterexample: building the model `{inputShape [2,2];
layers [Input, Dense 3]}` fails (Dense rejects the rank-2 shape), the
reported error names position 1 and variant `*nn.Dense`, the loss stays
unset — but the `Input` layer's recorded shapes survive the failed
`Build`: partial initialisation state IS committed, contradicting the
claim that no layer's initialization effects are retained. -/
theorem build_retains_partial_state :
    (Build { inputShape := [2, 2],
             layers := [.inputL none, .denseL 3 none], loss := none }).2 =
      some "build error layer 1 *nn.Dense invalid rank 2" ∧
    (Build { inputShape := [2, 2],
             layers := [.inputL none, .denseL 3 none], loss := none }).1.loss
      = none ∧
    (Build { inputShape := [2, 2],
             layers := [.inputL none, .denseL 3 none],
             loss := none }).1.layers.getD 0 (.inputL none) =
      .inputL (some ([2, 2], [2, 2])) ∧
    LayerC.inputL (some ([2, 2], [2, 2])) ≠ .inputL none := by
  refine ⟨rfl, rfl, rfl, by simp⟩

/-- C8 (amended): when a layer list headed by a successfully
initialising layer contains a first failing layer, `Build` returns the
wrapped error naming that layer's position (its index among
`layers[1:]`, plus one) and variant, and the loss is never assigned —
but the layers before the failure retain their initialisation effects
(recorded shapes, parameter allocation, optimizer binding): the failed
`Build` rolls nothing back. -/
theorem build_stops_at_first_failure (s0 : SeqC) (l0 l0' lbad : LayerC)
    (pre pre' post : List LayerC) (sh' : ShapeZ) (e : String)
    (hlay : s0.layers = l0 :: (pre ++ lbad :: post))
    (h0 : layerInit l0 s0.inputShape = .ok l0')
    (hpre : initPrefix (layerOutputShape l0') pre = .ok (pre', sh'))
    (hbad : layerInit lbad sh' = .error e) :
    Build s0 =
      ({ s0 with layers := l0' :: (pre' ++ lbad :: post) },
        some ("build error layer " ++ toString (pre.length + 1) ++ " " ++
          layerVariantName lbad ++ " " ++ e)) ∧
    (Build s0).1.loss = s0.loss := by
  have hb : Build s0 =
      ({ s0 with layers := l0' :: (pre' ++ lbad :: post) },
        some ("build error layer " ++ toString (pre.length + 1) ++ " " ++
          layerVariantName lbad ++ " " ++ e)) := by
    rw [Build]
    split
    · next heq => rw [hlay] at heq; exact absurd heq (by simp)
    · next l0x restx heq =>
      rw [hlay] at heq
      obtain ⟨rfl, rfl⟩ : l0 = l0x ∧ pre ++ lbad :: post = restx := by
        simpa using heq
      rw [h0]
      simp only
      rw [buildAux_fail pre 0 (layerOutputShape l0') pre' sh' hpre lbad post
        e hbad]
      simp
  exact ⟨hb, by rw [hb]⟩

theorem build_stops_at_first_failure_witness :
    layerInit (.inputL none) ([2, 2] : ShapeZ) =
      .ok (.inputL (some ([2, 2], [2, 2]))) ∧
    Build { inputShape := [2, 2],
            layers := [.inputL none, .denseL 3 none], loss := none } =
      ({ inputShape := [2, 2],
         layers := [.inputL (some ([2, 2], [2, 2])), .denseL 3 none],
         loss := none },
        some ("build error layer " ++ toString (1 : ℕ) ++ " " ++
          layerVariantName (.denseL 3 none) ++ " " ++ "invalid rank 2")) := by
  have h := build_stops_at_first_failure
    { inputShape := [2, 2], layers := [.inputL none, .denseL 3 none],
      loss := none }
    (.inputL none) (.inputL (some ([2, 2], [2, 2]))) (.denseL 3 none)
    [] [] [] [2, 2] "invalid rank 2" rfl rfl rfl rfl
  exact ⟨rfl, h.1⟩

end Build

section Frame

variable {K : Type} [LinearOrderedField K]

/-- A heap of tensor buffers: a Go `*Tensor` is an index into the store,
so aliasing, in-place writes and allocation are observable. -/
abbrev Store (K : Type) : Type := List (List K)

/-- `Dropout.Forward` (layer.go lines 201-219) in store semantics: the
layer receives a slice of tensor references; for each referenced tensor
it runs the masking loop, writing the zeroes back through the reference
(`input.rawData[index] = 0`), and finally `return inputs` hands back the
very slice it was given.  No tensor is allocated. -/
def dropoutForwardStore (stream : ℕ → ℕ) (fuel active units : ℕ) :
    ℕ → Store K → List ℕ → Option (Store K × List ℕ × List (List Bool))
  | _, st, [] => some (st, [], [])
  | pos, st, id :: ids =>
      match dropoutLoop stream active fuel pos 0 (List.replicate units false)
          (st.getD id []) with
      | none => none
      | some (mask, buf', pos') =>
          match dropoutForwardStore stream fuel active units pos'
              (st.set id buf') ids with
          | none => none
          | some (st', ids', masks) => some (st', id :: ids', mask :: masks)

/-- `Dropout.Backward` (layer.go lines 221-230) in store semantics: for
each referenced gradient tensor, zero it in place at the stored mask's
positions (`dout.rawData[j] = 0`) and `return douts` — again the very
slice that came in, with no allocation. -/
def dropoutBackwardStore (masks : List (List Bool)) :
    ℕ → Store K → List ℕ → Store K × List ℕ
  | _, st, [] => (st, [])
  | i, st, id :: ids =>
      let buf := dropMaskZero (masks.getD i []) (st.getD id [])
      let r := dropoutBackwardStore masks (i + 1) (st.set id buf) ids
      (r.1, id :: r.2)

/-- `ReLU.Forward` (activation.go lines 33-48) in store semantics, for
contrast: each sample allocates a fresh output tensor
(`output := NewTensor(input.shape)`) appended to the store, and the
returned slice references only the new tensors; the input buffers are
never written. -/
def reluForwardStore : Store K → List ℕ → Store K × List ℕ
  | st, [] => (st, [])
  | st, id :: ids =>
      let buf := (st.getD id []).map (fun x => max x 0)
      let r := reluForwardStore (st ++ [buf]) ids
      (r.1, st.length :: r.2)

omit [LinearOrderedField K] in
lemma length_set_store (st : Store K) (id : ℕ) (buf : List K) :
    (st.set id buf).length = st.length := by simp

omit [LinearOrderedField K] in
lemma getD_set_store_ne (st : Store K) {id tid : ℕ} (buf : List K)
    (h : id ≠ tid) : (st.set id buf).getD tid [] = st.getD tid [] :=
  getD_set_ne st buf [] h

lemma dropoutForwardStore_frame (stream : ℕ → ℕ) (fuel active units : ℕ) :
    ∀ (ids : List ℕ) (pos : ℕ) (st : Store K)
      (res : Store K × List ℕ × List (List Bool)),
      dropoutForwardStore stream fuel active units pos st ids = some res →
      res.2.1 = ids ∧ res.1.length = st.length ∧
      res.2.2.length = ids.length ∧
      (∀ tid, tid ∉ ids → res.1.getD tid [] = st.getD tid []) := by
  intro ids
  induction ids with
  | nil =>
    intro pos st res hrun
    obtain rfl : ((st, [], []) :
        Store K × List ℕ × List (List Bool)) = res := by
      simpa [dropoutForwardStore] using hrun
    exact ⟨rfl, rfl, rfl, fun _ _ => rfl⟩
  | cons id ids ih =>
    intro pos st res hrun
    rw [dropoutForwardStore] at hrun
    rcases h1 : dropoutLoop stream active fuel pos 0
        (List.replicate units false) (st.getD id []) with _ | ⟨⟨mask, buf', pos'⟩⟩
    · simp only [h1] at hrun
      exact absurd hrun (by simp)
    · simp only [h1] at hrun
      rcases h2 : dropoutForwardStore stream fuel active units pos'
          (st.set id buf') ids with _ | ⟨⟨st', ids', masks⟩⟩
      · simp only [h2] at hrun
        exact absurd hrun (by simp)
      · simp only [h2] at hrun
        obtain rfl : ((st', id :: ids', mask :: masks) :
            Store K × List ℕ × List (List Bool)) = res := by simpa using hrun
        obtain ⟨hids, hlen, hmlen, hframe⟩ := ih pos' (st.set id buf')
          (st', ids', masks) h2
        refine ⟨?_, ?_, ?_, ?_⟩
        · show id :: ids' = id :: ids
          rw [show ids' = ids from hids]
        · show st'.length = st.length
          rw [show st'.length = (st.set id buf').length from hlen,
            List.length_set]
        · show (mask :: masks).length = (id :: ids).length
          simp [show masks.length = ids.length from hmlen]
        · intro tid htid
          show st'.getD tid [] = st.getD tid []
          rw [show st'.getD tid [] = (st.set id buf').getD tid [] from
            hframe tid (fun hm => htid (by simp [hm]))]
          exact getD_set_store_ne st buf'
            (fun he => htid (by rw [← he]; exact List.mem_cons_self _ _))

lemma dropoutBackwardStore_frame (masks : List (List Bool)) :
    ∀ (ids : List ℕ) (i : ℕ) (st : Store K),
      (dropoutBackwardStore masks i st ids).2 = ids ∧
      (dropoutBackwardStore masks i st ids).1.length = st.length ∧
      (∀ tid, tid ∉ ids →
        (dropoutBackwardStore masks i st ids).1.getD tid [] =
          st.getD tid []) := by
  intro ids
  induction ids with
  | nil => intro i st; exact ⟨rfl, rfl, fun _ _ => rfl⟩
  | cons id ids ih =>
    intro i st
    obtain ⟨hids, hlen, hframe⟩ := ih (i + 1)
      (st.set id (dropMaskZero (masks.getD i []) (st.getD id [])))
    rw [dropoutBackwardStore]
    refine ⟨congrArg (List.cons id) hids, hlen.trans (by simp), ?_⟩
    intro tid htid
    exact (hframe tid (fun hm => htid (by simp [hm]))).trans
      (getD_set_store_ne st _
        (fun he => htid (by rw [← he]; exact List.mem_cons_self _ _)))

/-- C10: in store semantics, `Dropout.Forward` returns exactly the
tensor references it was given, allocates nothing (the store keeps its
length), leaves every tensor not in the batch untouched, and writes each
batch tensor in place; `Dropout.Backward` likewise returns the same
references, allocates nothing, and only writes the referenced gradient
buffers — so the tensors fed into a training-mode Dropout are themselves
mutated.  By contrast, `ReLU.Forward` allocates one fresh tensor per
sample and never writes an existing buffer. -/
theorem dropout_mutates_inputs_in_place (K : Type) [LinearOrderedField K]
    (stream : ℕ → ℕ) (fuel active units : ℕ) (st : Store K) (ids : List ℕ)
    (pos : ℕ) (res : Store K × List ℕ × List (List Bool))
    (hrun : dropoutForwardStore stream fuel active units pos st ids = some res) :
    (res.2.1 = ids ∧ res.1.length = st.length ∧
      (∀ tid, tid ∉ ids → res.1.getD tid [] = st.getD tid [])) ∧
    (∀ (masks : List (List Bool)) (i : ℕ) (st' : Store K),
      (dropoutBackwardStore masks i st' ids).2 = ids ∧
      (dropoutBackwardStore masks i st' ids).1.length = st'.length ∧
      (∀ tid, tid ∉ ids →
        (dropoutBackwardStore masks i st' ids).1.getD tid [] =
          st'.getD tid [])) ∧
    ((reluForwardStore st ids).1.length = st.length + ids.length ∧
      (∀ tid, tid < st.length →
        (reluForwardStore st ids).1.getD tid [] = st.getD tid []) ∧
      (∀ nid ∈ (reluForwardStore st ids).2, st.length ≤ nid)) := by
  refine ⟨?_, ?_, ?_⟩
  · obtain ⟨h1, h2, _, h4⟩ := dropoutForwardStore_frame stream fuel active
      units ids pos st res hrun
    exact ⟨h1, h2, h4⟩
  · intro masks i st'
    exact dropoutBackwardStore_frame masks ids i st'
  · clear hrun
    induction ids generalizing st with
    | nil => exact ⟨by simp [reluForwardStore], fun _ _ => rfl, by simp [reluForwardStore]⟩
    | cons id ids ih =>
      rw [reluForwardStore]
      obtain ⟨hlen, hold, hfresh⟩ :=
        ih (st ++ [(st.getD id []).map (fun x => max x 0)])
      refine ⟨?_, ?_, ?_⟩
      · rw [hlen]
        simp only [List.length_append, List.length_cons, List.length_nil]
        omega
      · intro tid htid
        rw [hold tid (by simp; omega)]
        exact List.getD_append st _ [] tid htid
      · intro nid hnid
        rcases List.mem_cons.mp hnid with rfl | hmem
        · exact le_refl _
        · have := hfresh nid hmem
          simp only [List.length_append, List.length_cons] at this
          omega

theorem dropout_mutates_inputs_in_place_witness :
    dropoutForwardStore (fun _ => 0) 2 1 2 0 [[(5 : ℚ), 7], [9, 9]] [0] =
      some ([[0, 7], [9, 9]], [0], [[true, false]]) ∧
    ([[(0 : ℚ), 7], [9, 9]], [0],
      [[true, false]]).2.1 = [0] ∧
    ([[(0 : ℚ), 7], [9, 9]] : Store ℚ).length =
      ([[(5 : ℚ), 7], [9, 9]] : Store ℚ).length ∧
    ([[(0 : ℚ), 7], [9, 9]] : Store ℚ).getD 1 [] =
      ([[(5 : ℚ), 7], [9, 9]] : Store ℚ).getD 1 [] := by
  have hrun : dropoutForwardStore (fun _ => 0) 2 1 2 0
      [[(5 : ℚ), 7], [9, 9]] [0] =
      some ([[0, 7], [9, 9]], [0], [[true, false]]) := rfl
  have h := dropout_mutates_inputs_in_place ℚ (fun _ => 0) 2 1 2
    [[(5 : ℚ), 7], [9, 9]] [0] 0 ([[0, 7], [9, 9]], [0], [[true, false]]) hrun
  exact ⟨hrun, h.1.1, h.1.2.1, h.1.2.2 1 (by simp)⟩

end Frame

end Tengor
